import Mathlib

/-!
Verification of the parsing and diff engine of `gxt_global_diff.py`.

The development shallowly embeds the Python source: text is a list of
characters, lines are produced by a model of `str.splitlines`, the three
regular expressions (`PAIR_RE`, `OPEN_BRACE_RE`, `CLOSE_BRACE_RE`) are
deterministic character-list matchers, and a Python `dict` is an
insertion-ordered association list with unique keys.
-/

namespace GxtGlobalDiff

/-- Characters matched by the regex class `\s` (ASCII part plus the
Unicode whitespace code points Python treats as `\s` for `str` patterns);
also the character set stripped by `str.strip()`. -/
def isPySpace (c : Char) : Bool :=
  c = ' ' || c = '\t' || c = '\n' || c = '\r' || c = '\x0b' || c = '\x0c' ||
  ('\x1c' ≤ c && c ≤ '\x1f') || c = '\x85' || c = '\xa0' ||
  c = '\u1680' || ('\u2000' ≤ c && c ≤ '\u200a') ||
  c = '\u2028' || c = '\u2029' || c = '\u202f' || c = '\u205f' || c = '\u3000'

/-- Line-boundary characters recognised by `str.splitlines` (other than the
two-character sequence carriage-return line-feed, handled separately). -/
def isLineBreakChar (c : Char) : Bool :=
  c = '\n' || c = '\r' || c = '\x0b' || c = '\x0c' ||
  c = '\x1c' || c = '\x1d' || c = '\x1e' || c = '\x85' ||
  c = '\u2028' || c = '\u2029'

/-- Model of `str.splitlines`: accumulator-based scan, treating
carriage-return line-feed as a single boundary. -/
def splitlinesAux : List Char → List Char → List (List Char)
  | [], acc => if acc.isEmpty then [] else [acc.reverse]
  | '\r' :: '\n' :: rest, acc => acc.reverse :: splitlinesAux rest []
  | c :: rest, acc =>
    if isLineBreakChar c then acc.reverse :: splitlinesAux rest []
    else splitlinesAux rest (c :: acc)

/-- Model of `text.splitlines()`. -/
def splitlines (text : List Char) : List (List Char) :=
  splitlinesAux text []

/-- Hexadecimal digits, the regex class `[0-9A-Fa-f]`. -/
def isHexDigit (c : Char) : Bool :=
  ('0' ≤ c && c ≤ '9') || ('A' ≤ c && c ≤ 'F') || ('a' ≤ c && c ≤ 'f')

/-- Model of `PAIR_RE.match(line)` for
`PAIR_RE = re.compile(r"^\s*(0x[0-9A-Fa-f]+)\s*=\s*(.*)$")`: skip leading
whitespace, read the literal `0x`, a maximal nonempty run of hex digits,
optional whitespace, `=`, optional whitespace; the value is the rest of the
line.  Greedy matching with backtracking coincides with this deterministic
scan because no whitespace character is `0`, no hex digit is whitespace or
`=`, and no whitespace character is `=`. -/
def pairMatch (line : List Char) : Option (List Char × List Char) :=
  match line.dropWhile isPySpace with
  | '0' :: 'x' :: rest2 =>
    let hex := rest2.takeWhile isHexDigit
    if hex.isEmpty then none
    else
      match (rest2.dropWhile isHexDigit).dropWhile isPySpace with
      | '=' :: rest4 => some ('0' :: 'x' :: hex, rest4.dropWhile isPySpace)
      | _ => none
  | _ => none

/-- Model of `OPEN_BRACE_RE.search(line)` for the pattern
`{\s*$` on a line without newline characters: the last
non-whitespace character of the line is an opening brace. -/
def matchesOpenBrace (line : List Char) : Bool :=
  (line.reverse.dropWhile isPySpace).head? = some '\x7b'

/-- Model of `CLOSE_BRACE_RE.search(line)` for the pattern
`}\s*$`: the last non-whitespace character of the line is a closing
brace. -/
def matchesCloseBrace (line : List Char) : Bool :=
  (line.reverse.dropWhile isPySpace).head? = some '\x7d'

/-- Model of `str.strip()`. -/
def pyStrip (l : List Char) : List Char :=
  ((l.dropWhile isPySpace).reverse.dropWhile isPySpace).reverse

/-- Model of `t.startswith(p)`. -/
def startsWithChars (p l : List Char) : Bool :=
  l.take p.length = p

/-- The comment markers, `COMMENT_PREFIXES = ("#", ";", "//")`. -/
def commentMarkers : List (List Char) := [['#'], [';'], ['/', '/']]

/-- Model of `is_comment_or_blank`. -/
def is_comment_or_blank (s : List Char) : Bool :=
  let t := pyStrip s
  t.isEmpty || commentMarkers.any (fun p => startsWithChars p t)

/-- A Python `dict` keyed by strings: an insertion-ordered association
list, unique keys by construction. -/
abbrev Dict : Type := List (List Char × List Char)

/-- Model of `k in d`. -/
def dictContains (d : Dict) (k : List Char) : Bool :=
  d.any (fun p => p.1 = k)

/-- Model of `d[k] = v`: overwrite in place when the key is present
(position kept), append otherwise. -/
def dictSet (d : Dict) (k v : List Char) : Dict :=
  if dictContains d k then
    d.map (fun p => if p.1 = k then (k, v) else p)
  else
    d ++ [(k, v)]

/-- Model of `d.get(k)` returning an optional value. -/
def dictLookup (d : Dict) (k : List Char) : Option (List Char) :=
  (d.find? (fun p => p.1 = k)).map (fun p => p.2)

/-- Model of `list(d)` / iteration order of a dict's keys. -/
def dictKeys (d : Dict) : List (List Char) :=
  d.map (fun p => p.1)

/-- Model of `len(d)`. -/
def dictLen (d : Dict) : Nat :=
  d.length

/-- The loop of `parse_global_text`: the Boolean is the `in_block` flag,
the two accumulators are the dict `d` and the list `order`. -/
def parseLoop : List (List Char) → Bool → Dict → List (List Char) →
    Dict × List (List Char)
  | [], _, d, order => (d, order)
  | line :: rest, false, d, order =>
    if matchesOpenBrace line then parseLoop rest true d order
    else parseLoop rest false d order
  | line :: rest, true, d, order =>
    if matchesCloseBrace line then (d, order)
    else if is_comment_or_blank line then parseLoop rest true d order
    else
      match pairMatch line with
      | none => parseLoop rest true d order
      | some (key, val) =>
        if dictContains d key then
          parseLoop rest true (dictSet d key val) order
        else
          parseLoop rest true (dictSet d key val) (order ++ [key])

/-- Model of `parse_global_text`. -/
def parse_global_text (text : List Char) : Dict × List (List Char) :=
  parseLoop (splitlines text) false [] []

/-- Lexicographic comparison of character lists by code point, the order
used by Python string comparison. -/
def lexLe : List Char → List Char → Bool
  | [], _ => true
  | _ :: _, [] => false
  | a :: as, b :: bs =>
    if a.toNat < b.toNat then true
    else if b.toNat < a.toNat then false
    else lexLe as bs

/-- Model of `str.upper()` on the ASCII strings the program sorts
(parsed keys are always `0x` followed by hex digits). -/
def pyUpper (l : List Char) : List Char :=
  l.map Char.toUpper

/-- The preorder `str.upper()`-then-compare used by
`sorted(keys, key=str.upper)`. -/
def keyLe (a b : List Char) : Prop :=
  lexLe (pyUpper a) (pyUpper b) = true

instance : DecidableRel keyLe := fun a b => instDecidableEqBool _ _

/-- Model of `sorted(keys, key=str.upper)`: Python `sorted` is stable, and
a stable sort by a fixed total preorder is unique, so the stable insertion
sort coincides with it. -/
def pySorted (keys : List (List Char)) : List (List Char) :=
  List.insertionSort keyLe keys

/-- Modelled from the spec words of the ordering claim: strict ascent
under case-insensitive (uppercased) comparison, the relation the claim
asserts between consecutive result keys when insertion order is not
kept. -/
def keyLt (a b : List Char) : Prop :=
  (lexLe (pyUpper a) (pyUpper b) && !(lexLe (pyUpper b) (pyUpper a))) = true

instance : DecidableRel keyLt := fun a b => instDecidableEqBool _ _

/-- Model of `emit_lines`. -/
def emit_lines (keys : List (List Char)) (src : Dict) (indent : List Char) :
    List (List Char) :=
  keys.map (fun k => indent ++ k ++ (' ' :: '=' :: ' ' :: []) ++
    (dictLookup src k).getD [])

/-- The sequence of lines written by `write_output` (each `f.write` in the
source appends one line plus a newline; the `indent` parameter of
`write_output` is accepted but unused, as in the source). -/
def write_output_lines (lines : List (List Char)) (wrap : Bool)
    (title : List Char) (indent : List Char) : List (List Char) :=
  if wrap then
    ("Version 2 30".data ++ (if title.isEmpty then [] else "  # ".data ++ title)) ::
      ['\x7b'] :: lines ++ [['\x7d']]
  else
    lines

/-- Join written lines into file content: every written line is followed
by a newline character. -/
def joinNl (lines : List (List Char)) : List Char :=
  lines.foldr (fun l acc => l ++ '\n' :: acc) []

/-- File content produced by `write_output`. -/
def write_output_content (lines : List (List Char)) (wrap : Bool)
    (title : List Char) (indent : List Char) : List Char :=
  joinNl (write_output_lines lines wrap title indent)

/-- The summary statistics reported by `run_diff`. -/
structure DiffSummary where
  linesWritten : Nat
  baseKeyCount : Nat
  latestKeyCount : Nat
  missingInLatest : Nat
  missingInBase : Nat
deriving DecidableEq, Repr

/-- Result of one diff invocation: the missing-key sequence, the content
written to the output file, and the summary numbers. -/
structure DiffOut where
  missing : List (List Char)
  content : List Char
  summary : DiffSummary
deriving DecidableEq, Repr

/-- Model of `run_diff` with file access abstracted away: the two input
texts stand for the decoded contents of the two files and the returned
`content` stands for what is written to the output file.  The body mirrors
the source line by line. -/
def run_diff_core (baseText latestText : List Char)
    (invert keep_order wrap : Bool) (title indent : List Char) : DiffOut :=
  let bp := parse_global_text baseText
  let lp := parse_global_text latestText
  let base_dict := bp.1
  let base_order := bp.2
  let latest_dict := lp.1
  let latest_order := lp.2
  let ms :=
    if invert then
      let source_order := if keep_order then latest_order
        else pySorted (dictKeys latest_dict)
      (source_order.filter (fun k => !(dictContains base_dict k)), latest_dict)
    else
      let source_order := if keep_order then base_order
        else pySorted (dictKeys base_dict)
      (source_order.filter (fun k => !(dictContains latest_dict k)), base_dict)
  let missing := ms.1
  let src := ms.2
  let lines := emit_lines missing src indent
  let content := write_output_content lines wrap title indent
  let base_only :=
    ((dictKeys base_dict).filter (fun k => !(dictContains latest_dict k))).length
  let latest_only :=
    ((dictKeys latest_dict).filter (fun k => !(dictContains base_dict k))).length
  { missing := missing
    content := content
    summary :=
      { linesWritten := missing.length
        baseKeyCount := dictLen base_dict
        latestKeyCount := dictLen latest_dict
        missingInLatest := base_only
        missingInBase := latest_only } }

/-- The fixed encoding list of `smart_read`. -/
def ENCODINGS : List (List Char) :=
  ["utf-8-sig".data, "utf-16".data, "utf-16le".data, "utf-16be".data,
   "cp1252".data]

/-- First successful decoding attempt, modelling the `try`/`except` loop of
`smart_read`: a raised decoding error is `none`. -/
def firstSuccess (decode : List Char → Option (List Char)) :
    List (List Char) → Option (List Char)
  | [] => none
  | e :: rest =>
    match decode e with
    | some s => some s
    | none => firstSuccess decode rest

/-- Model of `smart_read` on a readable file: `decode e` is the result of
decoding the file bytes with encoding `e` (`none` when the codec raises),
and `lossy` is the result of the final `utf-8-sig` decode with
`errors="replace"`, which always succeeds. -/
def smart_read (decode : List Char → Option (List Char))
    (lossy : List Char) : List Char :=
  (firstSuccess decode ENCODINGS).getD lossy

/-- The contribution of one in-block, non-terminating line: `none` when the
line is skipped (blank, comment, or unmatched), otherwise the key/value
pair captured by the pattern. -/
def lineEvent (line : List Char) : Option (List Char × List Char) :=
  if is_comment_or_blank line then none else pairMatch line

/-- The state update of the parse loop for one key/value event:
last value wins, the order sequence records only first occurrences. -/
def applyEvent (st : Dict × List (List Char)) (e : List Char × List Char) :
    Dict × List (List Char) :=
  if dictContains st.1 e.1 then (dictSet st.1 e.1 e.2, st.2)
  else (dictSet st.1 e.1 e.2, st.2 ++ [e.1])

/-- Key/value events of a list of in-block lines: lines before the first
close-brace line, filtered through `lineEvent`. -/
def eventsOf (lines : List (List Char)) : List (List Char × List Char) :=
  (lines.takeWhile (fun l => !(matchesCloseBrace l))).filterMap lineEvent

/-- The lines remaining after the opening-brace line (all lines when no
line matches the open-brace pattern). -/
def afterOpen (lines : List (List Char)) : List (List Char) :=
  (lines.dropWhile (fun l => !(matchesOpenBrace l))).drop 1

/-- Key/value events of a whole input text. -/
def events (text : List Char) : List (List Char × List Char) :=
  eventsOf (afterOpen (splitlines text))

/-- Value of the last event carrying a given key. -/
def lastVal : List (List Char × List Char) → List Char → Option (List Char)
  | [], _ => none
  | e :: rest, k =>
    match lastVal rest k with
    | some v => some v
    | none => if e.1 = k then some e.2 else none

/-- Keys in first-seen order, skipping keys already seen. -/
def firstSeen (seen : List (List Char)) : List (List Char) → List (List Char)
  | [] => []
  | k :: ks =>
    if k ∈ seen then firstSeen seen ks
    else k :: firstSeen (seen ++ [k]) ks

/-- Remainder of a line after its first equals sign: everything that
follows the first `=` character, empty when the line has no `=`. -/
def afterFirstEq (l : List Char) : List Char :=
  (l.dropWhile (fun c => c != '=')).tail

/-! ### Dictionary lemmas -/

theorem dictContains_iff {d : Dict} {k : List Char} :
    dictContains d k = true ↔ k ∈ dictKeys d := by
  simp [dictContains, dictKeys, List.any_eq_true, List.mem_map]

theorem find?_eq_none_of_not_contains {d : Dict} {k : List Char}
    (h : dictContains d k = false) :
    d.find? (fun p => p.1 = k) = none := by
  rw [List.find?_eq_none]
  intro p hp
  simp only [decide_eq_true_eq]
  intro hpk
  have hcon : dictContains d k = true := by
    simp only [dictContains, List.any_eq_true, decide_eq_true_eq]
    exact ⟨p, hp, hpk⟩
  rw [h] at hcon
  exact Bool.false_ne_true hcon

theorem find?_replace_self (d : Dict) (k v : List Char) :
    (d.map (fun p => if p.1 = k then (k, v) else p)).find?
        (fun p => p.1 = k) =
      (d.find? (fun p => p.1 = k)).map (fun _ => (k, v)) := by
  induction d with
  | nil => rfl
  | cons q d ih =>
    by_cases hq : q.1 = k
    · simp only [List.map_cons, if_pos hq]
      rw [List.find?_cons_of_pos _ (by simp), List.find?_cons_of_pos _ (by simp [hq])]
      rfl
    · simp only [List.map_cons, if_neg hq]
      rw [List.find?_cons_of_neg _ (by simp [hq]), List.find?_cons_of_neg _ (by simp [hq])]
      exact ih

theorem find?_replace_ne (d : Dict) (k v k' : List Char) (hne : k' ≠ k) :
    (d.map (fun p => if p.1 = k then (k, v) else p)).find?
        (fun p => p.1 = k') =
      d.find? (fun p => p.1 = k') := by
  induction d with
  | nil => rfl
  | cons q d ih =>
    by_cases hq : q.1 = k
    · simp only [List.map_cons, if_pos hq]
      rw [List.find?_cons_of_neg _ (by simp [Ne.symm hne]),
        List.find?_cons_of_neg _ (by simp [hq, Ne.symm hne])]
      exact ih
    · simp only [List.map_cons, if_neg hq]
      by_cases hq' : q.1 = k'
      · rw [List.find?_cons_of_pos _ (by simp [hq']),
          List.find?_cons_of_pos _ (by simp [hq'])]
      · rw [List.find?_cons_of_neg _ (by simp [hq']),
          List.find?_cons_of_neg _ (by simp [hq'])]
        exact ih

theorem dictLookup_set_self (d : Dict) (k v : List Char) :
    dictLookup (dictSet d k v) k = some v := by
  unfold dictSet dictLookup
  by_cases hc : dictContains d k = true
  · rw [if_pos hc, find?_replace_self]
    have hs : (d.find? (fun p => p.1 = k)).isSome := by
      rw [List.find?_isSome]
      simp only [dictContains, List.any_eq_true] at hc
      exact hc
    cases hfind : d.find? (fun p => p.1 = k) with
    | none => rw [hfind] at hs; cases hs
    | some p => simp
  · rw [if_neg hc, List.find?_append,
      find?_eq_none_of_not_contains (Bool.eq_false_iff.mpr hc)]
    simp

theorem dictLookup_set_ne (d : Dict) (k v k' : List Char) (hne : k' ≠ k) :
    dictLookup (dictSet d k v) k' = dictLookup d k' := by
  unfold dictSet dictLookup
  by_cases hc : dictContains d k = true
  · rw [if_pos hc, find?_replace_ne d k v k' hne]
  · rw [if_neg hc, List.find?_append]
    cases hfind : d.find? (fun p => p.1 = k') with
    | some p => simp
    | none =>
      simp only [Option.none_or]
      rw [List.find?_cons_of_neg _ (by simpa using Ne.symm hne)]
      simp

theorem dictKeys_set_of_contains {d : Dict} {k : List Char} (v : List Char)
    (h : dictContains d k = true) :
    dictKeys (dictSet d k v) = dictKeys d := by
  unfold dictSet
  rw [if_pos h]
  unfold dictKeys
  rw [List.map_map]
  apply List.map_congr_left
  intro p _
  by_cases hp : p.1 = k
  · simp [hp]
  · simp [hp]

theorem dictKeys_set_of_not_contains {d : Dict} {k : List Char}
    (v : List Char) (h : dictContains d k = false) :
    dictKeys (dictSet d k v) = dictKeys d ++ [k] := by
  unfold dictSet
  rw [if_neg (by simp [h])]
  simp [dictKeys]

theorem dictContains_set (d : Dict) (k v x : List Char) :
    dictContains (dictSet d k v) x = (decide (x = k) || dictContains d x) := by
  rw [Bool.eq_iff_iff, Bool.or_eq_true, decide_eq_true_eq, dictContains_iff]
  by_cases hc : dictContains d k = true
  · rw [dictKeys_set_of_contains v hc]
    rw [← dictContains_iff]
    constructor
    · exact Or.inr
    · rintro (h | h)
      · exact h ▸ hc
      · exact h
  · rw [dictKeys_set_of_not_contains v (Bool.eq_false_iff.mpr hc)]
    simp only [List.mem_append, List.mem_singleton, ← dictContains_iff]
    tauto

/-! ### The parser as a fold over key/value events -/

theorem applyEvent_fst (st : Dict × List (List Char))
    (e : List Char × List Char) :
    (applyEvent st e).1 = dictSet st.1 e.1 e.2 := by
  unfold applyEvent
  split <;> rfl

theorem parseLoop_true_eq (ls : List (List Char)) :
    ∀ d order, parseLoop ls true d order =
      (eventsOf ls).foldl applyEvent (d, order) := by
  induction ls with
  | nil => intro d order; rfl
  | cons line rest ih =>
    intro d order
    by_cases hcl : matchesCloseBrace line = true
    · have h1 : parseLoop (line :: rest) true d order = (d, order) := by
        simp [parseLoop, hcl]
      have h2 : eventsOf (line :: rest) = [] := by
        simp [eventsOf, List.takeWhile_cons, hcl]
      rw [h1, h2]
      rfl
    · have hcl' : (!(matchesCloseBrace line)) = true := by
        simp [Bool.eq_false_iff.mpr hcl]
      have hev : eventsOf (line :: rest) =
          (lineEvent line).toList ++ eventsOf rest := by
        simp only [eventsOf, List.takeWhile_cons, hcl', if_true,
          List.filterMap_cons]
        cases lineEvent line <;> simp
      by_cases hcm : is_comment_or_blank line = true
      · have : lineEvent line = none := by simp [lineEvent, hcm]
        rw [hev, this]
        simp only [Option.toList_none, List.nil_append]
        simp only [parseLoop, if_neg hcl, if_pos hcm]
        exact ih d order
      · have hle : lineEvent line = pairMatch line := by
          simp [lineEvent, hcm]
        cases hpm : pairMatch line with
        | none =>
          rw [hev, hle, hpm]
          simp only [Option.toList_none, List.nil_append]
          simp only [parseLoop, if_neg hcl, if_neg hcm, hpm]
          exact ih d order
        | some kv =>
          rw [hev, hle, hpm]
          simp only [Option.toList_some, List.singleton_append, List.foldl_cons]
          simp only [parseLoop, if_neg hcl, if_neg hcm, hpm]
          by_cases hc : dictContains d kv.1 = true
          · rw [if_pos hc]
            rw [ih]
            congr 1
            unfold applyEvent
            rw [if_pos hc]
          · rw [if_neg hc]
            rw [ih]
            congr 1
            unfold applyEvent
            rw [if_neg hc]

theorem parseLoop_false_eq (ls : List (List Char)) :
    ∀ d order, parseLoop ls false d order =
      parseLoop (afterOpen ls) true d order := by
  induction ls with
  | nil => intro d order; rfl
  | cons line rest ih =>
    intro d order
    by_cases hop : matchesOpenBrace line = true
    · have hao : afterOpen (line :: rest) = rest := by
        simp [afterOpen, List.dropWhile_cons, hop]
      rw [hao]
      simp only [parseLoop, if_pos hop]
    · have hao : afterOpen (line :: rest) = afterOpen rest := by
        simp [afterOpen, List.dropWhile_cons, Bool.eq_false_iff.mpr hop]
      rw [hao]
      simp only [parseLoop, if_neg hop]
      exact ih d order

/-- The parser is the fold of `applyEvent` over the event sequence. -/
theorem parse_global_text_eq_foldl (text : List Char) :
    parse_global_text text = (events text).foldl applyEvent ([], []) := by
  unfold parse_global_text events
  rw [parseLoop_false_eq, parseLoop_true_eq]

theorem foldl_applyEvent_lookup (es : List (List Char × List Char)) :
    ∀ d order k, dictLookup ((es.foldl applyEvent (d, order)).1) k =
      match lastVal es k with
      | some v => some v
      | none => dictLookup d k := by
  induction es with
  | nil => intro d order k; rfl
  | cons e rest ih =>
    intro d order k
    rw [List.foldl_cons, ih]
    cases hlast : lastVal rest k with
    | some v => simp [lastVal, hlast]
    | none =>
      simp only [lastVal, hlast]
      rw [applyEvent_fst]
      by_cases hek : e.1 = k
      · subst hek
        simp [dictLookup_set_self]
      · rw [dictLookup_set_ne _ _ _ _ (fun h => hek h.symm)]
        simp [hek]

theorem foldl_applyEvent_keys_order (es : List (List Char × List Char)) :
    ∀ d order, dictKeys d = order →
      dictKeys ((es.foldl applyEvent (d, order)).1) =
          (es.foldl applyEvent (d, order)).2 ∧
        (es.foldl applyEvent (d, order)).2 =
          order ++ firstSeen order (es.map Prod.fst) := by
  induction es with
  | nil =>
    intro d order h
    exact ⟨h, by simp [firstSeen]⟩
  | cons e rest ih =>
    intro d order h
    rw [List.foldl_cons]
    by_cases hc : dictContains d e.1 = true
    · have hmem : e.1 ∈ order := h ▸ dictContains_iff.mp hc
      have happ : applyEvent (d, order) e = (dictSet d e.1 e.2, order) := by
        unfold applyEvent
        rw [if_pos hc]
      rw [happ]
      obtain ⟨h1, h2⟩ := ih (dictSet d e.1 e.2) order
        ((dictKeys_set_of_contains e.2 hc).trans h)
      refine ⟨h1, ?_⟩
      rw [h2]
      congr 1
      simp only [List.map_cons]
      rw [firstSeen, if_pos hmem]
    · have hcf : dictContains d e.1 = false := Bool.eq_false_iff.mpr hc
      have hmem : e.1 ∉ order := by
        intro hk
        exact hc (dictContains_iff.mpr (h ▸ hk))
      have happ : applyEvent (d, order) e =
          (dictSet d e.1 e.2, order ++ [e.1]) := by
        unfold applyEvent
        rw [if_neg hc]
      rw [happ]
      obtain ⟨h1, h2⟩ := ih (dictSet d e.1 e.2) (order ++ [e.1])
        (by rw [dictKeys_set_of_not_contains e.2 hcf, h])
      refine ⟨h1, ?_⟩
      rw [h2]
      simp only [List.map_cons]
      rw [firstSeen, if_neg hmem]
      simp

theorem not_mem_seen_of_mem_firstSeen :
    ∀ ks seen k, k ∈ firstSeen seen ks → k ∉ seen := by
  intro ks
  induction ks with
  | nil => intro seen k h; cases h
  | cons k0 ks ih =>
    intro seen k h
    rw [firstSeen] at h
    by_cases h0 : k0 ∈ seen
    · rw [if_pos h0] at h
      exact ih seen k h
    · rw [if_neg h0] at h
      rcases List.mem_cons.mp h with rfl | h
      · exact h0
      · intro hk
        exact ih (seen ++ [k0]) k h (List.mem_append_left _ hk)

theorem nodup_firstSeen : ∀ ks seen, (firstSeen seen ks).Nodup := by
  intro ks
  induction ks with
  | nil => intro seen; exact List.nodup_nil
  | cons k0 ks ih =>
    intro seen
    rw [firstSeen]
    by_cases h0 : k0 ∈ seen
    · rw [if_pos h0]
      exact ih seen
    · rw [if_neg h0]
      refine List.nodup_cons.mpr ⟨?_, ih (seen ++ [k0])⟩
      intro hk
      exact not_mem_seen_of_mem_firstSeen ks (seen ++ [k0]) k0 hk
        (List.mem_append_right _ (List.mem_singleton.mpr rfl))

/-- The parse invariant: the order sequence lists exactly the first-seen
keys, coincides with the iteration order of the dict, and has no
duplicates. -/
theorem parse_invariant (text : List Char) :
    dictKeys (parse_global_text text).1 = (parse_global_text text).2 ∧
      (parse_global_text text).2 =
        firstSeen [] ((events text).map Prod.fst) ∧
      (parse_global_text text).2.Nodup := by
  rw [parse_global_text_eq_foldl]
  obtain ⟨h1, h2⟩ := foldl_applyEvent_keys_order (events text) [] [] rfl
  refine ⟨h1, ?_, ?_⟩
  · simpa using h2
  · rw [h2]
    simpa using nodup_firstSeen ((events text).map Prod.fst) []

/-- Lookup in the parsed dict is the value of the last event with the
given key. -/
theorem parse_lookup (text : List Char) (k : List Char) :
    dictLookup (parse_global_text text).1 k =
      match lastVal (events text) k with
      | some v => some v
      | none => none := by
  rw [parse_global_text_eq_foldl]
  rw [foldl_applyEvent_lookup]
  cases lastVal (events text) k <;> rfl

/-! ### Order lemmas for the sort comparator -/

theorem lexLe_total : ∀ a b : List Char, lexLe a b = true ∨ lexLe b a = true
  | [], _ => Or.inl rfl
  | _ :: _, [] => Or.inr rfl
  | a :: as, b :: bs => by
    by_cases h1 : a.toNat < b.toNat
    · left
      simp [lexLe, h1]
    · by_cases h2 : b.toNat < a.toNat
      · right
        simp [lexLe, h2]
      · rcases lexLe_total as bs with h | h
        · left
          simp [lexLe, h1, h2, h]
        · right
          simp [lexLe, h1, h2, h]

theorem lexLe_trans : ∀ a b c : List Char,
    lexLe a b = true → lexLe b c = true → lexLe a c = true
  | [], _, _, _, _ => rfl
  | _ :: _, [], _, hab, _ => by simp [lexLe] at hab
  | _ :: _, _ :: _, [], _, hbc => by simp [lexLe] at hbc
  | a :: as, b :: bs, c :: cs, hab, hbc => by
    simp only [lexLe] at hab hbc ⊢
    split_ifs at hab hbc ⊢ <;>
      first
        | rfl
        | (exfalso; omega)
        | exact Bool.false_ne_true hab
        | exact Bool.false_ne_true hbc
        | exact lexLe_trans as bs cs hab hbc

/-! ### Last-value and first-seen algebra -/

theorem firstSeen_nil (seen : List (List Char)) :
    firstSeen seen [] = [] := rfl

theorem firstSeen_cons (seen : List (List Char)) (k : List Char)
    (ks : List (List Char)) :
    firstSeen seen (k :: ks) =
      if k ∈ seen then firstSeen seen ks
      else k :: firstSeen (seen ++ [k]) ks := rfl

theorem lastVal_append (xs ys : List (List Char × List Char))
    (k : List Char) :
    lastVal (xs ++ ys) k =
      match lastVal ys k with
      | some v => some v
      | none => lastVal xs k := by
  induction xs with
  | nil =>
    cases h : lastVal ys k <;> simp [lastVal, h]
  | cons x xs ih =>
    have hstep : lastVal ((x :: xs) ++ ys) k =
        match lastVal (xs ++ ys) k with
        | some v => some v
        | none => if x.1 = k then some x.2 else none := rfl
    rw [hstep, ih]
    cases hys : lastVal ys k <;> cases hxs : lastVal xs k <;>
      simp [lastVal, hys, hxs]

theorem lastVal_eq_none {es : List (List Char × List Char)} {k : List Char}
    (h : ∀ e ∈ es, e.1 ≠ k) : lastVal es k = none := by
  induction es with
  | nil => rfl
  | cons e es ih =>
    rw [lastVal, ih (fun x hx => h x (List.mem_cons_of_mem e hx))]
    rw [if_neg (h e (List.mem_cons_self e es))]

theorem firstSeen_append (xs ys : List (List Char)) :
    ∀ seen, firstSeen seen (xs ++ ys) =
      firstSeen seen xs ++ firstSeen (seen ++ firstSeen seen xs) ys := by
  induction xs with
  | nil => intro seen; simp [firstSeen]
  | cons k xs ih =>
    intro seen
    by_cases hk : k ∈ seen
    · simp only [List.cons_append, firstSeen, if_pos hk]
      exact ih seen
    · simp only [List.cons_append, firstSeen, if_neg hk]
      simp only [List.append_eq]
      rw [ih (seen ++ [k])]
      simp

theorem mem_of_mem_firstSeen :
    ∀ ks seen k, k ∈ firstSeen seen ks → k ∈ ks := by
  intro ks
  induction ks with
  | nil => intro seen k h; cases h
  | cons k0 ks ih =>
    intro seen k h
    rw [firstSeen] at h
    by_cases h0 : k0 ∈ seen
    · rw [if_pos h0] at h
      exact List.mem_cons_of_mem _ (ih seen k h)
    · rw [if_neg h0] at h
      rcases List.mem_cons.mp h with rfl | h
      · exact List.mem_cons_self _ _
      · exact List.mem_cons_of_mem _ (ih (seen ++ [k0]) k h)

theorem not_mem_firstSeen_of_mem_seen :
    ∀ ks seen k, k ∈ seen → k ∉ firstSeen seen ks := by
  intro ks seen k hk hmem
  exact not_mem_seen_of_mem_firstSeen ks seen k hmem hk

/-! ### Claims -/

/-- C6: for every input text, the order sequence of the parsed table has
no duplicates and the mapping and the order sequence denote the same key
set (the order sequence is exactly the iteration order of the dict). -/
theorem claim_C6 (text : List Char) :
    (parse_global_text text).2.Nodup ∧
      dictKeys (parse_global_text text).1 = (parse_global_text text).2 ∧
      (∀ k, k ∈ (parse_global_text text).2 ↔
        dictContains (parse_global_text text).1 k = true) := by
  obtain ⟨h1, _, h3⟩ := parse_invariant text
  refine ⟨h3, h1, fun k => ?_⟩
  rw [dictContains_iff, h1]

/-- C1: when a key appears on two or more key/value lines of the block,
with value V1 on its first line and V2 on its last, the parsed mapping
sends it to V2 while the order sequence lists it exactly once, at the
position of its first occurrence (right after the keys first seen before
it). -/
theorem claim_C1 (text K V1 V2 : List Char)
    (es₁ es₂ es₃ : List (List Char × List Char))
    (hsplit : events text = es₁ ++ (K, V1) :: es₂ ++ (K, V2) :: es₃)
    (h1 : K ∉ es₁.map Prod.fst) (h3 : K ∉ es₃.map Prod.fst) :
    dictLookup (parse_global_text text).1 K = some V2 ∧
      List.count K (parse_global_text text).2 = 1 ∧
      ∃ tail, (parse_global_text text).2 =
          firstSeen [] (es₁.map Prod.fst) ++ K :: tail ∧
        K ∉ firstSeen [] (es₁.map Prod.fst) ∧ K ∉ tail := by
  have hKX : K ∉ firstSeen [] (es₁.map Prod.fst) := fun h =>
    h1 (mem_of_mem_firstSeen _ _ _ h)
  have h3' : lastVal es₃ K = none := by
    apply lastVal_eq_none
    intro e he hek
    exact h3 (hek ▸ List.mem_map_of_mem Prod.fst he)
  have hv2 : lastVal ((K, V2) :: es₃) K = some V2 := by
    rw [lastVal, h3']
    simp
  have hlook : dictLookup (parse_global_text text).1 K = some V2 := by
    rw [parse_lookup, hsplit, lastVal_append, hv2]
  obtain ⟨_, h2, _⟩ := parse_invariant text
  have hkeys : (events text).map Prod.fst =
      (es₁.map Prod.fst ++ K :: es₂.map Prod.fst) ++ K :: es₃.map Prod.fst := by
    rw [hsplit]
    simp
  have hstep2 : firstSeen [] (es₁.map Prod.fst ++ K :: es₂.map Prod.fst) =
      firstSeen [] (es₁.map Prod.fst) ++
        K :: firstSeen (firstSeen [] (es₁.map Prod.fst) ++ [K])
          (es₂.map Prod.fst) := by
    rw [firstSeen_append]
    simp only [List.nil_append]
    rw [firstSeen_cons, if_neg hKX]
  have hKW : K ∈ firstSeen [] (es₁.map Prod.fst) ++
      K :: firstSeen (firstSeen [] (es₁.map Prod.fst) ++ [K])
        (es₂.map Prod.fst) :=
    List.mem_append_right _ (List.mem_cons_self _ _)
  have horder : (parse_global_text text).2 =
      firstSeen [] (es₁.map Prod.fst) ++
        K :: (firstSeen (firstSeen [] (es₁.map Prod.fst) ++ [K])
            (es₂.map Prod.fst) ++
          firstSeen (firstSeen [] (es₁.map Prod.fst) ++
              K :: firstSeen (firstSeen [] (es₁.map Prod.fst) ++ [K])
                (es₂.map Prod.fst))
            (es₃.map Prod.fst)) := by
    rw [h2, hkeys, firstSeen_append, hstep2]
    simp only [List.nil_append]
    rw [firstSeen_cons, if_pos hKW]
    simp [List.append_assoc]
  have hKtail : K ∉ firstSeen (firstSeen [] (es₁.map Prod.fst) ++ [K])
        (es₂.map Prod.fst) ++
      firstSeen (firstSeen [] (es₁.map Prod.fst) ++
          K :: firstSeen (firstSeen [] (es₁.map Prod.fst) ++ [K])
            (es₂.map Prod.fst))
        (es₃.map Prod.fst) := by
    intro hmem
    rcases List.mem_append.mp hmem with hm | hm
    · exact not_mem_firstSeen_of_mem_seen _ _ _
        (List.mem_append_right _ (List.mem_singleton.mpr rfl)) hm
    · exact not_mem_firstSeen_of_mem_seen _ _ _ hKW hm
  have hcount : List.count K (parse_global_text text).2 = 1 := by
    rw [horder, List.count_append, List.count_cons_self,
      List.count_eq_zero.mpr hKX, List.count_eq_zero.mpr hKtail]
  exact ⟨hlook, hcount, _, horder, hKX, hKtail⟩

/-- Witness for C1: the block contains the key 0x1 with value A and,
after the key 0x2, again with value C. -/
theorem claim_C1_witness :
    dictLookup (parse_global_text "\x7b\n0x1=A\n0x2=B\n0x1=C\n\x7d".data).1
        "0x1".data = some "C".data ∧
      List.count "0x1".data
        (parse_global_text "\x7b\n0x1=A\n0x2=B\n0x1=C\n\x7d".data).2 = 1 ∧
      ∃ tail, (parse_global_text "\x7b\n0x1=A\n0x2=B\n0x1=C\n\x7d".data).2 =
          firstSeen []
            (([] : List (List Char × List Char)).map Prod.fst) ++
            "0x1".data :: tail ∧
        "0x1".data ∉ firstSeen []
          (([] : List (List Char × List Char)).map Prod.fst) ∧
        "0x1".data ∉ tail :=
  claim_C1 "\x7b\n0x1=A\n0x2=B\n0x1=C\n\x7d".data "0x1".data "A".data
    "C".data [] [("0x2".data, "B".data)] [] (by decide) (by decide) (by decide)

/-- C10: while the parser is in-block, any line whose last non-whitespace
character is a closing brace terminates parsing at once: the accumulated
table is returned unchanged, so nothing on that line and nothing after it
is recorded; a comment line and a key/value line ending in a closing brace
both match the close pattern. -/
theorem claim_C10 (line : List Char) (rest : List (List Char)) (d : Dict)
    (order : List (List Char)) (h : matchesCloseBrace line = true) :
    parseLoop (line :: rest) true d order = (d, order) ∧
      matchesCloseBrace ('#' :: ' ' :: '\x7d' :: []) = true ∧
      matchesCloseBrace "0x1 = v\x7d".data = true := by
  refine ⟨?_, by decide, by decide⟩
  simp [parseLoop, h]

/-- Witness for C10: a comment line holding only a closing brace ends the
parse with the accumulated state, ignoring the rest of the input. -/
theorem claim_C10_witness :
    parseLoop ["# \x7d".data, "0x2=B".data] true [("0x1".data, "A".data)]
        ["0x1".data] = ([("0x1".data, "A".data)], ["0x1".data]) ∧
      matchesCloseBrace ('#' :: ' ' :: '\x7d' :: []) = true ∧
      matchesCloseBrace "0x1 = v\x7d".data = true :=
  claim_C10 "# \x7d".data ["0x2=B".data] [("0x1".data, "A".data)]
    ["0x1".data] (by decide)

theorem firstSuccess_spec (decode : List Char → Option (List Char)) :
    ∀ es : List (List Char),
      (∃ i, ∃ hi : i < es.length,
          firstSuccess decode es = decode (es.get ⟨i, hi⟩) ∧
            (firstSuccess decode es).isSome = true ∧
            ∀ e ∈ es.take i, decode e = none) ∨
        (firstSuccess decode es = none ∧ ∀ e ∈ es, decode e = none)
  | [] => Or.inr ⟨rfl, fun e he => absurd he (List.not_mem_nil e)⟩
  | e :: es => by
    cases hd : decode e with
    | some s =>
      left
      refine ⟨0, Nat.succ_pos _, ?_, ?_, ?_⟩
      · show firstSuccess decode (e :: es) = decode e
        rw [firstSuccess, hd]
      · rw [firstSuccess, hd]
        rfl
      · intro x hx
        cases hx
    | none =>
      have hstep : firstSuccess decode (e :: es) = firstSuccess decode es := by
        rw [firstSuccess, hd]
      rcases firstSuccess_spec decode es with ⟨i, hi, ha, hb, hc⟩ | ⟨ha, hb⟩
      · left
        refine ⟨i + 1, Nat.succ_lt_succ hi, ?_, ?_, ?_⟩
        · rw [hstep, ha]
          rfl
        · rw [hstep]
          exact hb
        · intro x hx
          rcases List.mem_cons.mp hx with rfl | hx
          · exact hd
          · exact hc x hx
      · right
        refine ⟨hstep.trans ha, ?_⟩
        intro x hx
        rcases List.mem_cons.mp hx with rfl | hx
        · exact hd
        · exact hb x hx

/-- C7: the reader tries the fixed ordered encoding list and returns the
first decoding that succeeds; when every attempt fails it returns the
lossy fallback decoding, so it always returns a string. -/
theorem claim_C7 (decode : List Char → Option (List Char))
    (lossy : List Char) :
    ENCODINGS = ["utf-8-sig".data, "utf-16".data, "utf-16le".data,
        "utf-16be".data, "cp1252".data] ∧
      ((∃ i, ∃ hi : i < ENCODINGS.length,
          decode (ENCODINGS.get ⟨i, hi⟩) = some (smart_read decode lossy) ∧
            ∀ e ∈ ENCODINGS.take i, decode e = none) ∨
        (smart_read decode lossy = lossy ∧ ∀ e ∈ ENCODINGS, decode e = none)) := by
  refine ⟨rfl, ?_⟩
  rcases firstSuccess_spec decode ENCODINGS with ⟨i, hi, ha, hb, hc⟩ | ⟨ha, hb⟩
  · left
    refine ⟨i, hi, ?_, hc⟩
    cases hfs : firstSuccess decode ENCODINGS with
    | none => rw [hfs] at hb; cases hb
    | some v =>
      rw [hfs] at ha
      rw [← ha]
      show some v = some (smart_read decode lossy)
      rw [smart_read, hfs]
      rfl
  · right
    refine ⟨?_, hb⟩
    rw [smart_read, ha]
    rfl

/-- C9: both missing counts are computed from the two parsed dicts alone,
independent of every option flag, and the missing-in-latest count for
(base, latest) is the missing-in-base count for the swapped pair. -/
theorem claim_C9 (baseText latestText : List Char)
    (invert keep_order wrap : Bool) (title indent : List Char)
    (invert' keep_order' wrap' : Bool) (title' indent' : List Char) :
    (run_diff_core baseText latestText invert keep_order wrap title
          indent).summary.missingInLatest =
        ((dictKeys (parse_global_text baseText).1).filter
          (fun k => !(dictContains (parse_global_text latestText).1 k))).length ∧
      (run_diff_core baseText latestText invert keep_order wrap title
          indent).summary.missingInBase =
        ((dictKeys (parse_global_text latestText).1).filter
          (fun k => !(dictContains (parse_global_text baseText).1 k))).length ∧
      (run_diff_core baseText latestText invert keep_order wrap title
          indent).summary.missingInLatest =
        (run_diff_core latestText baseText invert' keep_order' wrap' title'
          indent').summary.missingInBase :=
  ⟨rfl, rfl, rfl⟩

/-- C8: in wrapped mode with a nonempty title the output lines are exactly
the header with the title comment, an opening-brace line, one line per key
in order, and a closing-brace line; with an empty title the header line
carries no trailing comment. -/
theorem claim_C8 (keys : List (List Char)) (src : Dict)
    (indent title : List Char) (v : List Char → List Char)
    (hne : keys ≠ []) (htitle : title ≠ [])
    (hv : ∀ k ∈ keys, dictLookup src k = some (v k)) :
    write_output_lines (emit_lines keys src indent) true title indent =
      ("Version 2 30  # ".data ++ title) ::
        ['\x7b'] ::
        keys.map (fun k => indent ++ k ++ " = ".data ++ v k) ++
        [['\x7d']] ∧
      write_output_lines (emit_lines keys src indent) true [] indent =
        "Version 2 30".data ::
          ['\x7b'] ::
          keys.map (fun k => indent ++ k ++ " = ".data ++ v k) ++
          [['\x7d']] := by
  have hmap : emit_lines keys src indent =
      keys.map (fun k => indent ++ k ++ " = ".data ++ v k) := by
    unfold emit_lines
    apply List.map_congr_left
    intro k hk
    rw [hv k hk]
    rfl
  have htl : title.isEmpty = false := by
    cases title with
    | nil => exact absurd rfl htitle
    | cons c cs => rfl
  constructor
  · unfold write_output_lines
    rw [hmap, htl]
    simp only [Bool.false_eq_true, if_false, if_true]
    congr 1
  · unfold write_output_lines
    rw [hmap]
    rfl

/-- Witness for C8: one key, title Patch, tab indent. -/
theorem claim_C8_witness :
    (write_output_lines
        (emit_lines ["0x1".data] [("0x1".data, "V1".data)] ['\t']) true
        "Patch".data ['\t'] =
      ("Version 2 30  # ".data ++ "Patch".data) ::
        ['\x7b'] ::
        ["0x1".data].map
          (fun k => ['\t'] ++ k ++ " = ".data ++ (fun _ => "V1".data) k) ++
        [['\x7d']]) ∧
      write_output_lines
          (emit_lines ["0x1".data] [("0x1".data, "V1".data)] ['\t']) true
          [] ['\t'] =
        "Version 2 30".data ::
          ['\x7b'] ::
          ["0x1".data].map
            (fun k => ['\t'] ++ k ++ " = ".data ++ (fun _ => "V1".data) k) ++
          [['\x7d']] :=
  claim_C8 ["0x1".data] [("0x1".data, "V1".data)] ['\t'] "Patch".data
    (fun _ => "V1".data) (by decide) (by decide) (by decide)

theorem run_diff_missing (bT lT : List Char) (inv ko w : Bool)
    (t i : List Char) :
    (run_diff_core bT lT inv ko w t i).missing =
      (if inv then
        (if ko then (parse_global_text lT).2
          else pySorted (dictKeys (parse_global_text lT).1)).filter
          (fun k => !(dictContains (parse_global_text bT).1 k))
      else
        (if ko then (parse_global_text bT).2
          else pySorted (dictKeys (parse_global_text bT).1)).filter
          (fun k => !(dictContains (parse_global_text lT).1 k))) := by
  cases inv <;> cases ko <;> rfl

theorem missing_mem_spec (srcText othText : List Char) (ko : Bool)
    (k : List Char) :
    k ∈ (if ko then (parse_global_text srcText).2
        else pySorted (dictKeys (parse_global_text srcText).1)).filter
        (fun x => !(dictContains (parse_global_text othText).1 x)) ↔
      (dictContains (parse_global_text srcText).1 k = true ∧
        dictContains (parse_global_text othText).1 k = false) := by
  rw [List.mem_filter]
  obtain ⟨hkeys, _, _⟩ := parse_invariant srcText
  have hsrc : ∀ l, (if ko then (parse_global_text srcText).2
      else pySorted (dictKeys (parse_global_text srcText).1)) = l →
      (k ∈ l ↔ dictContains (parse_global_text srcText).1 k = true) := by
    intro l hl
    subst hl
    cases ko with
    | false =>
      simp only [if_false, Bool.false_eq_true]
      rw [pySorted, List.mem_insertionSort, dictContains_iff]
    | true =>
      simp only [if_true]
      rw [dictContains_iff, hkeys]
  rw [hsrc _ rfl]
  constructor
  · rintro ⟨hmem, hoth⟩
    exact ⟨hmem, by simpa using hoth⟩
  · rintro ⟨hmem, hoth⟩
    exact ⟨hmem, by simp [hoth]⟩

theorem missing_nodup_spec (srcText othText : List Char) (ko : Bool) :
    ((if ko then (parse_global_text srcText).2
        else pySorted (dictKeys (parse_global_text srcText).1)).filter
        (fun x => !(dictContains (parse_global_text othText).1 x))).Nodup := by
  apply List.Nodup.filter
  obtain ⟨hkeys, _, hnd⟩ := parse_invariant srcText
  cases ko with
  | false =>
    simp only [if_false, Bool.false_eq_true]
    exact (List.perm_insertionSort keyLe _).nodup_iff.mpr (hkeys ▸ hnd)
  | true =>
    simpa using hnd

/-- C3: with invert false the result is exactly the keys of the base table
absent from the latest table, with invert true exactly the keys of the
latest table absent from the base table, each exactly once; on the
concrete scenario the forward unwrapped output is the single line with key
0x2 and value B, with summary counts 2, 1, 1, 0. -/
theorem claim_C3 (baseText latestText : List Char)
    (keep_order wrap : Bool) (title indent : List Char) :
    (∀ k, k ∈ (run_diff_core baseText latestText false keep_order wrap
          title indent).missing ↔
        (dictContains (parse_global_text baseText).1 k = true ∧
          dictContains (parse_global_text latestText).1 k = false)) ∧
      (run_diff_core baseText latestText false keep_order wrap title
        indent).missing.Nodup ∧
      (∀ k, k ∈ (run_diff_core baseText latestText true keep_order wrap
          title indent).missing ↔
        (dictContains (parse_global_text latestText).1 k = true ∧
          dictContains (parse_global_text baseText).1 k = false)) ∧
      (run_diff_core baseText latestText true keep_order wrap title
        indent).missing.Nodup ∧
      (run_diff_core "\x7b\n0x1=A\n0x2=B\n\x7d".data
          "\x7b\n0x1=A\n\x7d".data false false false [] "\t".data).content =
        "\t0x2 = B\n".data ∧
      (run_diff_core "\x7b\n0x1=A\n0x2=B\n\x7d".data
          "\x7b\n0x1=A\n\x7d".data false false false [] "\t".data).summary =
        { linesWritten := 1, baseKeyCount := 2, latestKeyCount := 1,
          missingInLatest := 1, missingInBase := 0 } := by
  refine ⟨?_, ?_, ?_, ?_, by decide, by decide⟩
  · intro k
    rw [run_diff_missing]
    exact missing_mem_spec baseText latestText keep_order k
  · rw [run_diff_missing]
    exact missing_nodup_spec baseText latestText keep_order
  · intro k
    rw [run_diff_missing]
    exact missing_mem_spec latestText baseText keep_order k
  · rw [run_diff_missing]
    exact missing_nodup_spec latestText baseText keep_order

/-- C4 (amended): with keepOrder true the result key sequence is a
sub-sequence of the source table's recorded first-seen order; with
keepOrder false the result keys are ascending under case-insensitive
(uppercased) comparison, allowing ties between keys that differ only in
letter case. -/
theorem claim_C4 (baseText latestText : List Char) (invert wrap : Bool)
    (title indent : List Char) :
    (run_diff_core baseText latestText invert true wrap title
        indent).missing.Sublist
      (if invert then (parse_global_text latestText).2
        else (parse_global_text baseText).2) ∧
    List.Sorted keyLe
      (run_diff_core baseText latestText invert false wrap title
        indent).missing := by
  haveI : IsTotal (List Char) keyLe :=
    ⟨fun a b => lexLe_total (pyUpper a) (pyUpper b)⟩
  haveI : IsTrans (List Char) keyLe :=
    ⟨fun a b c => lexLe_trans (pyUpper a) (pyUpper b) (pyUpper c)⟩
  constructor
  · rw [run_diff_missing]
    cases invert with
    | false =>
      simp only [Bool.false_eq_true, if_false, if_true]
      exact List.filter_sublist _
    | true =>
      simp only [if_true]
      exact List.filter_sublist _
  · rw [run_diff_missing]
    cases invert with
    | false =>
      simp only [Bool.false_eq_true, if_false]
      exact (List.sorted_insertionSort keyLe _).sublist (List.filter_sublist _)
    | true =>
      simp only [if_true, Bool.false_eq_true, if_false]
      exact (List.sorted_insertionSort keyLe _).sublist (List.filter_sublist _)

/-- Counterexample for C4 as stated: the parsed base table holds the two
distinct keys 0xa and 0xA, equal after uppercasing, so the
keepOrder-false result is not strictly ascending under uppercased
comparison. -/
theorem claim_C4_counterexample :
    (run_diff_core "\x7b\n0xa=1\n0xA=2\n\x7d".data "\x7b\n\x7d".data
          false false false [] "\t".data).missing =
        ["0xa".data, "0xA".data] ∧
      ¬ List.Pairwise keyLt
        (run_diff_core "\x7b\n0xa=1\n0xA=2\n\x7d".data "\x7b\n\x7d".data
          false false false [] "\t".data).missing := by
  constructor
  · decide
  · decide

theorem dropWhile_append_all {p : Char → Bool} {A : List Char}
    (B : List Char) (h : ∀ c ∈ A, p c = true) :
    (A ++ B).dropWhile p = B.dropWhile p := by
  induction A with
  | nil => rfl
  | cons a A ih =>
    rw [List.cons_append, List.dropWhile_cons, h a (List.mem_cons_self a A),
      if_pos rfl]
    exact ih (fun c hc => h c (List.mem_cons_of_mem a hc))

/-- C5 (amended): the value stored for a matched key/value line is the
remainder of the line after the first equals sign with its leading
whitespace removed; the rest is verbatim, a literal suffix of the line. -/
theorem claim_C5 (line k v : List Char)
    (h : pairMatch line = some (k, v)) :
    v = (afterFirstEq line).dropWhile isPySpace ∧ v <:+ line := by
  unfold pairMatch at h
  split at h
  next rest2 heq =>
    by_cases hhex : (rest2.takeWhile isHexDigit).isEmpty = true
    · rw [if_pos hhex] at h
      cases h
    · rw [if_neg hhex] at h
      split at h
      next rest4 heq2 =>
        rw [Option.some.injEq, Prod.mk.injEq] at h
        obtain ⟨hk, hv⟩ := h
        subst hv
        have hline : line = line.takeWhile isPySpace ++ ('0' :: 'x' :: rest2) := by
          rw [← heq]
          exact (List.takeWhile_append_dropWhile isPySpace line).symm
        have hrest2 : rest2 =
            rest2.takeWhile isHexDigit ++ rest2.dropWhile isHexDigit :=
          (List.takeWhile_append_dropWhile isHexDigit rest2).symm
        have hrest3 : rest2.dropWhile isHexDigit =
            (rest2.dropWhile isHexDigit).takeWhile isPySpace ++
              ('=' :: rest4) := by
          rw [← heq2]
          exact (List.takeWhile_append_dropWhile isPySpace _).symm
        have hps : ∀ c : Char, isPySpace c = true → (c != '=') = true := by
          intro c hc
          rw [bne_iff_ne]
          intro he
          subst he
          exact absurd hc (by decide)
        have hhx : ∀ c : Char, isHexDigit c = true → (c != '=') = true := by
          intro c hc
          rw [bne_iff_ne]
          intro he
          subst he
          exact absurd hc (by decide)
        have hdrop : line.dropWhile (fun c => c != '=') = '=' :: rest4 := by
          conv_lhs => rw [hline]
          rw [dropWhile_append_all _
            (fun c hc => hps c (List.mem_takeWhile_imp hc))]
          rw [show ('0' :: 'x' :: rest2 : List Char) = ['0', 'x'] ++ rest2
            from rfl]
          rw [dropWhile_append_all _ (by decide)]
          conv_lhs => rw [hrest2]
          rw [dropWhile_append_all _
            (fun c hc => hhx c (List.mem_takeWhile_imp hc))]
          conv_lhs => rw [hrest3]
          rw [dropWhile_append_all _
            (fun c hc => hps c (List.mem_takeWhile_imp hc))]
          rw [List.dropWhile_cons, if_neg (by decide)]
        have hafter : afterFirstEq line = rest4 := by
          rw [afterFirstEq, hdrop]
          rfl
        refine ⟨by rw [hafter], ?_⟩
        have hsuf1 : rest4.dropWhile isPySpace <:+ rest4 :=
          List.dropWhile_suffix _
        have hsuf2 : rest4 <:+ '=' :: rest4 := ⟨['='], rfl⟩
        have hsuf3 : '=' :: rest4 <:+ line :=
          hdrop ▸ List.dropWhile_suffix (fun c => c != '=')
        exact hsuf1.trans (hsuf2.trans hsuf3)
      next =>
        cases h
  next =>
    cases h

/-- Witness for C5: the line 0x1 equals double-space A stores the value A,
the whitespace-stripped remainder after the first equals sign, itself a
suffix of the line. -/
theorem claim_C5_witness :
    "A".data = (afterFirstEq "0x1 =  A".data).dropWhile isPySpace ∧
      "A".data <:+ "0x1 =  A".data :=
  claim_C5 "0x1 =  A".data "0x1".data "A".data (by decide)

/-- Counterexample for C5 as stated: the parser stores A for this line,
but the remainder of the line after the first equals sign with only the
line terminator removed keeps its two leading spaces. -/
theorem claim_C5_counterexample :
    pairMatch "0x1 =  A".data = some ("0x1".data, "A".data) ∧
      afterFirstEq "0x1 =  A".data = "  A".data ∧
      ("A".data : List Char) ≠ "  A".data := by
  refine ⟨by decide, by decide, by decide⟩

/-! ### Round-trip infrastructure -/

set_option maxHeartbeats 1000000 in
theorem splitlinesAux_cons_other (c : Char) (rest acc : List Char)
    (hcr : c ≠ '\r') :
    splitlinesAux (c :: rest) acc =
      if isLineBreakChar c = true then acc.reverse :: splitlinesAux rest []
      else splitlinesAux rest (c :: acc) := by
  rw [splitlinesAux.eq_3]
  intro r1 hceq _
  exact absurd hceq hcr

theorem not_break_ne_cr {c : Char} (hc : isLineBreakChar c = false) :
    c ≠ '\r' := by
  intro he
  subst he
  exact absurd hc (by decide)

theorem splitlinesAux_line (l : List Char) :
    ∀ acc rest, (∀ c ∈ l, isLineBreakChar c = false) →
      splitlinesAux (l ++ '\n' :: rest) acc =
        (acc.reverse ++ l) :: splitlinesAux rest [] := by
  induction l with
  | nil =>
    intro acc rest _
    rw [List.nil_append, List.append_nil,
      splitlinesAux_cons_other '\n' rest acc (by decide)]
    rw [if_pos (by decide)]
  | cons c l ih =>
    intro acc rest h
    have hc : isLineBreakChar c = false := h c (List.mem_cons_self _ _)
    rw [List.cons_append, splitlinesAux_cons_other c _ acc (not_break_ne_cr hc),
      if_neg (by simp [hc]), ih (c :: acc) rest
        (fun x hx => h x (List.mem_cons_of_mem c hx))]
    simp

theorem splitlines_joinNl (ls : List (List Char))
    (h : ∀ l ∈ ls, ∀ c ∈ l, isLineBreakChar c = false) :
    splitlines (joinNl ls) = ls := by
  induction ls with
  | nil => rfl
  | cons l ls ih =>
    have hjoin : joinNl (l :: ls) = l ++ '\n' :: joinNl ls := rfl
    rw [splitlines, hjoin,
      splitlinesAux_line l [] (joinNl ls) (h l (List.mem_cons_self _ _))]
    simp only [List.reverse_nil, List.nil_append]
    exact congrArg (l :: ·)
      (ih (fun x hx c hc => h x (List.mem_cons_of_mem l hx) c hc))

theorem takeWhile_append_all {p : Char → Bool} {A : List Char}
    (B : List Char) (h : ∀ c ∈ A, p c = true) :
    (A ++ B).takeWhile p = A ++ B.takeWhile p := by
  induction A with
  | nil => rfl
  | cons a A ih =>
    rw [List.cons_append, List.takeWhile_cons, h a (List.mem_cons_self a A),
      if_pos rfl, List.cons_append]
    rw [ih (fun c hc => h c (List.mem_cons_of_mem a hc))]

theorem dropWhile_head_not (v : List Char)
    (h : ∀ c, v.head? = some c → isPySpace c = false) :
    v.dropWhile isPySpace = v := by
  cases v with
  | nil => rfl
  | cons c t =>
    rw [List.dropWhile_cons, h c rfl]
    simp

theorem hex_not_break {c : Char} (h : isHexDigit c = true) :
    isLineBreakChar c = false := by
  by_contra hb
  rw [Bool.not_eq_false] at hb
  unfold isLineBreakChar at hb
  simp only [Bool.or_eq_true, decide_eq_true_eq] at hb
  rcases hb with
    ((((((((rfl | rfl) | rfl) | rfl) | rfl) | rfl) | rfl) | rfl) | rfl) |
      rfl <;>
    exact absurd h (by decide)

theorem dropWhile_ws_emit (indent hx v : List Char)
    (hind : ∀ c ∈ indent, isPySpace c = true) :
    (indent ++ ('0' :: 'x' :: hx) ++ " = ".data ++ v).dropWhile isPySpace =
      '0' :: 'x' :: (hx ++ (" = ".data ++ v)) := by
  rw [List.append_assoc, List.append_assoc]
  rw [dropWhile_append_all _ hind]
  rw [show (('0' :: 'x' :: hx : List Char) ++ (" = ".data ++ v)) =
    '0' :: 'x' :: (hx ++ (" = ".data ++ v)) from by simp]
  rw [List.dropWhile_cons, if_neg (by decide)]

theorem pairMatch_emit (indent hx v : List Char)
    (hind : ∀ c ∈ indent, isPySpace c = true)
    (hne : hx ≠ []) (hhex : ∀ c ∈ hx, isHexDigit c = true)
    (hvhead : ∀ c, v.head? = some c → isPySpace c = false) :
    pairMatch (indent ++ ('0' :: 'x' :: hx) ++ " = ".data ++ v) =
      some ('0' :: 'x' :: hx, v) := by
  have hred : pairMatch (indent ++ ('0' :: 'x' :: hx) ++ " = ".data ++ v) =
      (if ((hx ++ (" = ".data ++ v)).takeWhile isHexDigit).isEmpty = true
        then none
        else
          match ((hx ++ (" = ".data ++ v)).dropWhile
              isHexDigit).dropWhile isPySpace with
          | '=' :: rest4 =>
            some ('0' :: 'x' ::
              (hx ++ (" = ".data ++ v)).takeWhile isHexDigit,
              rest4.dropWhile isPySpace)
          | _ => none) := by
    unfold pairMatch
    rw [dropWhile_ws_emit indent hx v hind]
    rfl
  have htake : (hx ++ (" = ".data ++ v)).takeWhile isHexDigit = hx := by
    rw [takeWhile_append_all _ hhex]
    rw [show (" = ".data ++ v).takeWhile isHexDigit = [] from by
      rw [show (" = ".data ++ v) = ' ' :: ("= ".data ++ v) from rfl]
      rw [List.takeWhile_cons, if_neg (by decide)]]
    simp
  have hdrop2 : (hx ++ (" = ".data ++ v)).dropWhile isHexDigit =
      " = ".data ++ v := by
    rw [dropWhile_append_all _ hhex]
    rw [show (" = ".data ++ v) = ' ' :: ("= ".data ++ v) from rfl]
    rw [List.dropWhile_cons, if_neg (by decide)]
  have hdrop3 : (" = ".data ++ v).dropWhile isPySpace = '=' :: (' ' :: v) := by
    rw [show (" = ".data ++ v) = ' ' :: ('=' :: (' ' :: v)) from rfl]
    rw [List.dropWhile_cons, if_pos (by decide)]
    rw [List.dropWhile_cons, if_neg (by decide)]
  rw [hred, htake, hdrop2, hdrop3, if_neg (by simp [hne])]
  show some ('0' :: 'x' :: hx, (' ' :: v).dropWhile isPySpace) =
    some ('0' :: 'x' :: hx, v)
  rw [List.dropWhile_cons, if_pos (by decide), dropWhile_head_not v hvhead]

theorem close_emit_false (indent k v : List Char)
    (hlast : (v.reverse.dropWhile isPySpace).head? ≠ some '\x7d') :
    matchesCloseBrace (indent ++ k ++ " = ".data ++ v) = false := by
  unfold matchesCloseBrace
  have hrev : (indent ++ k ++ " = ".data ++ v).reverse =
      v.reverse ++ (' ' :: '=' :: ' ' :: (k.reverse ++ indent.reverse)) := by
    simp [List.reverse_append]
  rw [hrev, List.dropWhile_append]
  by_cases he : (v.reverse.dropWhile isPySpace).isEmpty = true
  · rw [if_pos he]
    rw [List.dropWhile_cons, if_pos (by decide)]
    rw [List.dropWhile_cons, if_neg (by decide)]
    simp
  · rw [if_neg he]
    cases hcase : v.reverse.dropWhile isPySpace with
    | nil => rw [hcase] at he; exact absurd rfl he
    | cons c t =>
      rw [hcase] at hlast
      rw [List.cons_append]
      simp only [List.head?_cons, decide_eq_false_iff_not]
      intro hcc
      exact hlast (by rw [List.head?_cons, hcc])

theorem pyStrip_emit (indent hx v : List Char)
    (hind : ∀ c ∈ indent, isPySpace c = true) :
    ∃ Y, pyStrip (indent ++ ('0' :: 'x' :: hx) ++ " = ".data ++ v) =
      '0' :: Y := by
  unfold pyStrip
  rw [dropWhile_ws_emit indent hx v hind]
  rw [show ('0' :: 'x' :: (hx ++ (" = ".data ++ v))).reverse =
    ('x' :: (hx ++ (" = ".data ++ v))).reverse ++ ['0'] from
    List.reverse_cons _ _]
  rw [List.dropWhile_append]
  by_cases he : ((('x' :: (hx ++ (" = ".data ++ v))).reverse).dropWhile
      isPySpace).isEmpty = true
  · rw [if_pos he]
    refine ⟨[], ?_⟩
    rw [List.dropWhile_cons, if_neg (by decide)]
    rfl
  · rw [if_neg he]
    refine ⟨(('x' :: (hx ++ (" = ".data ++ v))).reverse.dropWhile
      isPySpace).reverse, ?_⟩
    rw [List.reverse_append]
    rfl

theorem comment_emit_false (indent hx v : List Char)
    (hind : ∀ c ∈ indent, isPySpace c = true) :
    is_comment_or_blank (indent ++ ('0' :: 'x' :: hx) ++ " = ".data ++ v) =
      false := by
  obtain ⟨Y, hY⟩ := pyStrip_emit indent hx v hind
  unfold is_comment_or_blank
  rw [hY]
  simp [startsWithChars, commentMarkers, List.take]

theorem lineEvent_emit (indent hx v : List Char)
    (hind : ∀ c ∈ indent, isPySpace c = true)
    (hne : hx ≠ []) (hhex : ∀ c ∈ hx, isHexDigit c = true)
    (hvhead : ∀ c, v.head? = some c → isPySpace c = false) :
    lineEvent (indent ++ ('0' :: 'x' :: hx) ++ " = ".data ++ v) =
      some ('0' :: 'x' :: hx, v) := by
  unfold lineEvent
  rw [comment_emit_false indent hx v hind]
  simp only [Bool.false_eq_true, if_false]
  exact pairMatch_emit indent hx v hind hne hhex hvhead

theorem eventsOf_cons_skip (l : List Char) (X : List (List Char))
    (hcl : matchesCloseBrace l = false) (hev : lineEvent l = none) :
    eventsOf (l :: X) = eventsOf X := by
  simp [eventsOf, List.takeWhile_cons, hcl, List.filterMap_cons, hev]

theorem eventsOf_cons_event (l : List Char) (X : List (List Char))
    (kv : List Char × List Char)
    (hcl : matchesCloseBrace l = false) (hev : lineEvent l = some kv) :
    eventsOf (l :: X) = kv :: eventsOf X := by
  simp [eventsOf, List.takeWhile_cons, hcl, List.filterMap_cons, hev]

theorem mem_firstSeen_of_mem :
    ∀ ks seen k, k ∈ ks → k ∉ seen → k ∈ firstSeen seen ks := by
  intro ks
  induction ks with
  | nil => intro seen k h; cases h
  | cons k0 ks ih =>
    intro seen k hk hns
    rw [firstSeen_cons]
    by_cases h0 : k0 ∈ seen
    · rw [if_pos h0]
      rcases List.mem_cons.mp hk with rfl | hk
      · exact absurd h0 hns
      · exact ih seen k hk hns
    · rw [if_neg h0]
      by_cases hkk : k = k0
      · subst hkk
        exact List.mem_cons_self _ _
      · rcases List.mem_cons.mp hk with rfl | hk
        · exact absurd rfl hkk
        · refine List.mem_cons_of_mem _ (ih (seen ++ [k0]) k hk ?_)
          intro hm
          rcases List.mem_append.mp hm with hm | hm
          · exact hns hm
          · exact hkk (List.mem_singleton.mp hm)

theorem lastVal_map_not_mem (v : List Char → List Char)
    (keys : List (List Char)) (k : List Char) (h : k ∉ keys) :
    lastVal (keys.map (fun x => (x, v x))) k = none := by
  apply lastVal_eq_none
  intro e he hek
  rw [List.mem_map] at he
  obtain ⟨x, hx, rfl⟩ := he
  exact h (hek ▸ hx)

theorem lastVal_map_of_mem (v : List Char → List Char) :
    ∀ (keys : List (List Char)) (k : List Char), k ∈ keys →
      lastVal (keys.map (fun x => (x, v x))) k = some (v k) := by
  intro keys
  induction keys with
  | nil => intro k h; cases h
  | cons k0 keys ih =>
    intro k hk
    rw [List.map_cons, lastVal]
    by_cases hmem : k ∈ keys
    · rw [ih k hmem]
    · have hk0 : k = k0 := by
        rcases List.mem_cons.mp hk with h | h
        · exact h
        · exact absurd h hmem
      subst hk0
      rw [lastVal_map_not_mem v keys k hmem]
      simp

theorem eventsOf_emit (src : Dict) (indent : List Char)
    (hind : ∀ c ∈ indent, isPySpace c = true) :
    ∀ keys : List (List Char),
      (∀ k ∈ keys, ∃ hx, hx ≠ [] ∧ (∀ c ∈ hx, isHexDigit c = true) ∧
        k = '0' :: 'x' :: hx) →
      (∀ k ∈ keys, ∀ c, ((dictLookup src k).getD []).head? = some c →
        isPySpace c = false) →
      (∀ k ∈ keys, (((dictLookup src k).getD []).reverse.dropWhile
        isPySpace).head? ≠ some '\x7d') →
      eventsOf (emit_lines keys src indent ++ [['\x7d']]) =
        keys.map (fun k => (k, (dictLookup src k).getD [])) := by
  intro keys
  induction keys with
  | nil =>
    intro _ _ _
    show eventsOf (emit_lines [] src indent ++ [['\x7d']]) = []
    rw [show emit_lines [] src indent = [] from rfl, List.nil_append]
    decide
  | cons k keys ih =>
    intro hkey hv2 hv3
    obtain ⟨hx, hxne, hxhex, hkk⟩ := hkey k (List.mem_cons_self _ _)
    subst hkk
    have hemit : emit_lines (('0' :: 'x' :: hx) :: keys) src indent =
        (indent ++ ('0' :: 'x' :: hx) ++ " = ".data ++
          (dictLookup src ('0' :: 'x' :: hx)).getD []) ::
          emit_lines keys src indent := rfl
    rw [hemit, List.cons_append,
      eventsOf_cons_event _ _ _
        (close_emit_false indent ('0' :: 'x' :: hx) _
          (hv3 _ (List.mem_cons_self _ _)))
        (lineEvent_emit indent hx _ hind hxne hxhex
          (hv2 _ (List.mem_cons_self _ _))),
      List.map_cons]
    congr 1
    exact ih (fun x hxm => hkey x (List.mem_cons_of_mem _ hxm))
      (fun x hxm => hv2 x (List.mem_cons_of_mem _ hxm))
      (fun x hxm => hv3 x (List.mem_cons_of_mem _ hxm))

/-- C2 (amended): parsing the wrapped serializer output returns exactly
the serialized key set with the serialized values, provided each key is a
hex literal, the indent is non-breaking whitespace, the title has no line
break, and each value has no line break, does not start with whitespace,
and does not end (ignoring trailing whitespace) in a closing brace. -/
theorem claim_C2 (keys : List (List Char)) (src : Dict)
    (indent title : List Char)
    (hkeys : ∀ k ∈ keys, ∃ hx, hx ≠ [] ∧ (∀ c ∈ hx, isHexDigit c = true) ∧
      k = '0' :: 'x' :: hx)
    (hind : ∀ c ∈ indent, isPySpace c = true ∧ isLineBreakChar c = false)
    (htitle : ∀ c ∈ title, isLineBreakChar c = false)
    (hv1 : ∀ k ∈ keys, ∀ c ∈ (dictLookup src k).getD [],
      isLineBreakChar c = false)
    (hv2 : ∀ k ∈ keys, ∀ c, ((dictLookup src k).getD []).head? = some c →
      isPySpace c = false)
    (hv3 : ∀ k ∈ keys, (((dictLookup src k).getD []).reverse.dropWhile
      isPySpace).head? ≠ some '\x7d') :
    (∀ k, dictContains (parse_global_text (write_output_content
        (emit_lines keys src indent) true title indent)).1 k = true ↔
      k ∈ keys) ∧
      ∀ k ∈ keys, dictLookup (parse_global_text (write_output_content
          (emit_lines keys src indent) true title indent)).1 k =
        some ((dictLookup src k).getD []) := by
  have hindw : ∀ c ∈ indent, isPySpace c = true := fun c hc => (hind c hc).1
  have hwl : write_output_lines (emit_lines keys src indent) true title
      indent =
      ("Version 2 30".data ++
          (if title.isEmpty then [] else "  # ".data ++ title)) ::
        ['\x7b'] :: emit_lines keys src indent ++ [['\x7d']] := rfl
  have hnb : ∀ l ∈ write_output_lines (emit_lines keys src indent) true
      title indent, ∀ c ∈ l, isLineBreakChar c = false := by
    rw [hwl]
    intro l hl c hc
    rcases List.mem_cons.mp hl with rfl | hl
    · rcases List.mem_append.mp hc with hc | hc
      · exact (by decide :
          ∀ c ∈ "Version 2 30".data, isLineBreakChar c = false) c hc
      · by_cases ht : title.isEmpty = true
        · rw [if_pos ht] at hc
          cases hc
        · rw [if_neg ht] at hc
          rcases List.mem_append.mp hc with hc | hc
          · exact (by decide :
              ∀ c ∈ "  # ".data, isLineBreakChar c = false) c hc
          · exact htitle c hc
    · rcases List.mem_cons.mp hl with rfl | hl
      · rw [List.mem_singleton] at hc
        subst hc
        decide
      · rcases List.mem_append.mp hl with hl | hl
        · obtain ⟨k, hk, rfl⟩ := List.mem_map.mp hl
          obtain ⟨hx, hxne, hxhex, rfl⟩ := hkeys k hk
          rcases List.mem_append.mp hc with hc | hc
          · rcases List.mem_append.mp hc with hc | hc
            · rcases List.mem_append.mp hc with hc | hc
              · exact (hind c hc).2
              · rcases List.mem_cons.mp hc with rfl | hc
                · decide
                · rcases List.mem_cons.mp hc with rfl | hc
                  · decide
                  · exact hex_not_break (hxhex c hc)
            · exact (by decide :
                ∀ c ∈ " = ".data, isLineBreakChar c = false) c hc
          · exact hv1 _ hk c hc
        · rw [List.mem_singleton] at hl
          subst hl
          rw [List.mem_singleton] at hc
          subst hc
          decide
  have hsplit : splitlines (write_output_content
      (emit_lines keys src indent) true title indent) =
      ("Version 2 30".data ++
          (if title.isEmpty then [] else "  # ".data ++ title)) ::
        ['\x7b'] :: emit_lines keys src indent ++ [['\x7d']] := by
    rw [write_output_content, splitlines_joinNl _ hnb, hwl]
  have hbodyev : eventsOf (emit_lines keys src indent ++ [['\x7d']]) =
      keys.map (fun k => (k, (dictLookup src k).getD [])) :=
    eventsOf_emit src indent hindw keys hkeys hv2 hv3
  have hev : events (write_output_content (emit_lines keys src indent)
      true title indent) =
      keys.map (fun k => (k, (dictLookup src k).getD [])) := by
    rw [events, hsplit]
    by_cases hop : matchesOpenBrace ("Version 2 30".data ++
        (if title.isEmpty then [] else "  # ".data ++ title)) = true
    · have hao : afterOpen (("Version 2 30".data ++
            (if title.isEmpty then [] else "  # ".data ++ title)) ::
          ['\x7b'] :: emit_lines keys src indent ++ [['\x7d']]) =
          ['\x7b'] :: (emit_lines keys src indent ++ [['\x7d']]) := by
        show (List.dropWhile (fun l => !(matchesOpenBrace l))
            (("Version 2 30".data ++
              (if title.isEmpty then [] else "  # ".data ++ title)) ::
              ['\x7b'] :: (emit_lines keys src indent ++ [['\x7d']]))).drop 1 =
          ['\x7b'] :: (emit_lines keys src indent ++ [['\x7d']])
        rw [List.dropWhile_cons, if_neg (by simp only [hop]; decide)]
        rfl
      rw [hao, eventsOf_cons_skip _ _ (by decide) (by decide), hbodyev]
    · have hao : afterOpen (("Version 2 30".data ++
            (if title.isEmpty then [] else "  # ".data ++ title)) ::
          ['\x7b'] :: emit_lines keys src indent ++ [['\x7d']]) =
          emit_lines keys src indent ++ [['\x7d']] := by
        show (List.dropWhile (fun l => !(matchesOpenBrace l))
            (("Version 2 30".data ++
              (if title.isEmpty then [] else "  # ".data ++ title)) ::
              ['\x7b'] :: (emit_lines keys src indent ++ [['\x7d']]))).drop 1 =
          emit_lines keys src indent ++ [['\x7d']]
        rw [List.dropWhile_cons,
          if_pos (by simp only [Bool.eq_false_iff.mpr hop]; decide)]
        rw [List.dropWhile_cons, if_neg (by decide)]
        rfl
      rw [hao, hbodyev]
  constructor
  · intro x
    obtain ⟨hkeq, hordeq, _⟩ := parse_invariant (write_output_content
      (emit_lines keys src indent) true title indent)
    rw [dictContains_iff, hkeq, hordeq, hev]
    rw [show (keys.map
        (fun k => (k, (dictLookup src k).getD []))).map Prod.fst = keys
      from by
        rw [List.map_map]
        rw [show (Prod.fst ∘ fun k => (k, (dictLookup src k).getD [])) =
          @id (List Char) from rfl]
        exact List.map_id _]
    constructor
    · exact fun h => mem_of_mem_firstSeen _ _ _ h
    · exact fun h => mem_firstSeen_of_mem _ _ _ h (List.not_mem_nil x)
  · intro x hx
    rw [parse_lookup, hev, lastVal_map_of_mem _ keys x hx]

/-- Witness for C2 (amended): one hex key with a plain value survives the
wrapped round trip. -/
theorem claim_C2_witness :
    (∀ k, dictContains (parse_global_text (write_output_content
        (emit_lines ["0x1".data] [("0x1".data, "A".data)] ['\t'])
        true "Patch".data ['\t'])).1 k = true ↔ k ∈ ["0x1".data]) ∧
      ∀ k ∈ ["0x1".data],
        dictLookup (parse_global_text (write_output_content
          (emit_lines ["0x1".data] [("0x1".data, "A".data)] ['\t'])
          true "Patch".data ['\t'])).1 k =
        some ((dictLookup [("0x1".data, "A".data)] k).getD []) :=
  claim_C2 ["0x1".data] [("0x1".data, "A".data)] ['\t'] "Patch".data
    (fun k hk => ⟨['1'], by decide, by decide, by
      rw [List.mem_singleton.mp hk]⟩)
    (by decide) (by decide)
    (fun k hk => by
      rw [List.mem_singleton.mp hk]
      decide)
    (fun k hk c hc => by
      rw [List.mem_singleton.mp hk] at hc
      rw [show ((dictLookup [("0x1".data, "A".data)] "0x1".data).getD
        []).head? = some 'A' from rfl] at hc
      cases hc
      decide)
    (fun k hk => by
      rw [List.mem_singleton.mp hk]
      decide)

/-- Counterexample for C2 as stated: a value consisting of a closing brace
makes the entry line of the wrapped output match the close pattern, so the
serialized key 0x1 is absent from the reparsed table. -/
theorem claim_C2_counterexample :
    dictContains (parse_global_text (write_output_content
        (emit_lines ["0x1".data] [("0x1".data, ['\x7d'])] ['\t'])
        true [] ['\t'])).1 "0x1".data = false ∧
      "0x1".data ∈ ["0x1".data] := by
  refine ⟨by decide, by decide⟩

end GxtGlobalDiff
